import Mathlib

/-!
Verification of the OpenMS MRM/SWATH assay-generation core (`MRMAssay`),
the labeling hook base class (`BaseLabeler`), and `JavaInfo::canRun`,
against their natural-language specification.

Conventions. m/z values are modelled as exact rationals (`ℚ`); peptide
sequences as lists of characters; the pseudorandom source as a linear
congruential generator over `Nat`. Functions whose implementations are
declared in `MRMAssay.h` but whose bodies are not part of the sampled
sources are modelled from the specification text and marked as such in
their doc comments.
-/

/-! ## UIS matching (`MRMAssay::getMatchingPeptidoforms_`) -/

/-- Modelled from the spec: `MRMAssay::getMatchingPeptidoforms_` (declared in
`MRMAssay.h`; body not among the sampled sources). Scans the candidate ion
list and returns the labels of every peptidoform whose stored m/z lies
within ± `mz_threshold` of `fragment_ion`, inclusive bounds, absolute
m/z units. -/
def getMatchingPeptidoforms_ (fragment_ion : ℚ) (ions : List (ℚ × String))
    (mz_threshold : ℚ) : List String :=
  (ions.filter (fun p => |fragment_ion - p.1| ≤ mz_threshold)).map Prod.snd

/-! ## Swath window lookup (`MRMAssay::getSwath_`) -/

/-- Modelled from the spec: `MRMAssay::getSwath_` (declared in `MRMAssay.h`;
body not among the sampled sources). Linear scan returning the index of the
first swath window whose bounds contain `precursor_mz`, or the sentinel `-1`
when no window contains it. -/
def getSwath_ : List (ℚ × ℚ) → ℚ → Int
  | [], _ => -1
  | w :: ws, precursor_mz =>
    if w.1 ≤ precursor_mz ∧ precursor_mz ≤ w.2 then 0
    else
      let r := getSwath_ ws precursor_mz
      if r = -1 then -1 else r + 1

/-- A swath window `w` contains a precursor m/z value (inclusive bounds). -/
def windowContains (w : ℚ × ℚ) (mz : ℚ) : Prop :=
  w.1 ≤ mz ∧ mz ≤ w.2

instance (w : ℚ × ℚ) (mz : ℚ) : Decidable (windowContains w mz) := by
  unfold windowContains; infer_instance

/-! ## `MRMAssay::uisTransitions` configuration defaults (from the header) -/

/-- Resolution of the optional trailing parameters of
`MRMAssay::uisTransitions`, from the declaration in `MRMAssay.h`:
`int round_decPow = -4, size_t max_num_alternative_localizations = 20,
int shuffle_seed = -1, bool disable_decoy_transitions = false`.
An omitted argument (`none`) is filled with the declared default. -/
def resolveUISArgs (round_decPow : Option Int)
    (max_num_alternative_localizations : Option Nat)
    (shuffle_seed : Option Int) (disable_decoy_transitions : Option Bool) :
    Int × Nat × Int × Bool :=
  (round_decPow.getD (-4),
   max_num_alternative_localizations.getD 20,
   shuffle_seed.getD (-1),
   disable_decoy_transitions.getD false)

/-- Seed selection for decoy generation: `shuffle_seed = -1` means the seed
is taken from wall-clock time, any other value is used as given
(doc in `MRMAssay.h`: "set seed for shuffle (-1: select seed based on time)"). -/
def resolveShuffleSeed (shuffle_seed : Int) (timeSeed : Nat) : Nat :=
  if shuffle_seed = -1 then timeSeed else shuffle_seed.toNat

/-! ## `BaseLabeler` hooks (from `BaseLabeler.h`) -/

/-- What the default body of a `BaseLabeler` virtual member does when
invoked: nothing at all, throw an `Exception::NotImplemented` object by
value, or throw a pointer to a heap-allocated `Exception::NotImplemented`. -/
inductive HookBehavior where
  | noOp
  | throwNotImplementedValue
  | throwNotImplementedPointer
deriving DecidableEq

/-- The virtual extension points of `BaseLabeler` that have an overridable
default body in `BaseLabeler.h`. -/
inductive LabelerHook where
  | preCheck
  | setUpHook
  | postDigestHook
  | postRTHook
  | postDetectabilityHook
  | postIonizationHook
  | postRawMSHook
  | postRawTandemMSHook
deriving DecidableEq

/-- Default-body behavior of each `BaseLabeler` extension point, read off
`BaseLabeler.h`: `preCheck` executes `throw new Exception::NotImplemented(...)`
(a pointer throw); `setUpHook` has an empty body; every other hook executes
`throw Exception::NotImplemented(...)` (a value throw). -/
def hookBehavior : LabelerHook → HookBehavior
  | .preCheck => .throwNotImplementedPointer
  | .setUpHook => .noOp
  | .postDigestHook => .throwNotImplementedValue
  | .postRTHook => .throwNotImplementedValue
  | .postDetectabilityHook => .throwNotImplementedValue
  | .postIonizationHook => .throwNotImplementedValue
  | .postRawMSHook => .throwNotImplementedValue
  | .postRawTandemMSHook => .throwNotImplementedValue

/-- A hook "fails loudly" when its default body raises something instead of
silently returning. -/
def failsLoudly (h : LabelerHook) : Bool :=
  hookBehavior h ≠ HookBehavior.noOp

/-- C++ catch-matching for a handler written `catch (Exception::NotImplemented&)`
(or by value): it matches a thrown `Exception::NotImplemented` object, but not
a thrown pointer `Exception::NotImplemented*`, and nothing when nothing is
thrown. -/
def caughtByNotImplementedHandler : HookBehavior → Bool
  | .throwNotImplementedValue => true
  | .throwNotImplementedPointer => false
  | .noOp => false

/-- The exception classes relevant to `BaseLabeler::preCheck`. -/
inductive LabelerExceptionType where
  | notImplemented
  | invalidParameter
deriving DecidableEq

/-- The exception class `BaseLabeler::preCheck`'s doc comment promises
(`@throws Exception::InvalidParameter if the given parameters are not
consistent with the labeling technique`). -/
def preCheckDocumentedThrow : LabelerExceptionType := .invalidParameter

/-- The exception class `BaseLabeler::preCheck` actually throws (a pointer
to): `Exception::NotImplemented`. -/
def preCheckActualThrow : LabelerExceptionType := .notImplemented

/-! ## `JavaInfo::canRun` (from `JavaInfo.cpp`) -/

/-- `JavaInfo::canRun`, with the environment abstracted to two booleans:
`findSucceeds` (whether `File::find(java_executable)` returns rather than
throwing) and `processFinishes` (the result of `qp.waitForFinished()` after
starting the process). Mirrors the control flow of `JavaInfo.cpp`: the
`catch` block returns `false` only inside `if (verbose_on_error)`; otherwise
execution falls through to the `QProcess` attempt, whose `waitForFinished`
result is returned. -/
def canRun (findSucceeds processFinishes verbose_on_error : Bool) : Bool :=
  if !findSucceeds && verbose_on_error then false
  else processFinishes

/-! ## Combination enumeration (`MRMAssay::nchoosekcombinations_`) -/

/-- Modelled from the spec: `MRMAssay::nchoosekcombinations_` (declared in
`MRMAssay.h`; body not among the sampled sources). Enumerates every
k-element subset of the given index list, each subset keeping the input
order of its indices; `k = 0` yields the single empty subset, `k > |n|`
yields no subsets. -/
def nchoosekcombinations_ : List Nat → Nat → List (List Nat)
  | _, 0 => [[]]
  | [], _ + 1 => []
  | x :: xs, k + 1 =>
    (nchoosekcombinations_ xs k).map (fun c => x :: c) ++
      nchoosekcombinations_ xs (k + 1)

theorem nchoosekcombinations_length (n : List Nat) :
    ∀ k, (nchoosekcombinations_ n k).length = n.length.choose k := by
  induction n with
  | nil => intro k; cases k <;> simp [nchoosekcombinations_]
  | cons x xs ih =>
    intro k
    cases k with
    | zero => simp [nchoosekcombinations_]
    | succ k =>
      simp [nchoosekcombinations_, ih, Nat.choose_succ_succ]

theorem nchoosekcombinations_mem (n : List Nat) :
    ∀ (k : Nat) (c : List Nat),
      c ∈ nchoosekcombinations_ n k ↔ c.Sublist n ∧ c.length = k := by
  induction n with
  | nil =>
    intro k c
    cases k with
    | zero =>
      simp only [nchoosekcombinations_, List.mem_singleton, List.sublist_nil]
      constructor
      · rintro rfl; exact ⟨rfl, rfl⟩
      · rintro ⟨rfl, _⟩; rfl
    | succ k =>
      simp only [nchoosekcombinations_, List.not_mem_nil, false_iff, not_and,
        List.sublist_nil]
      rintro rfl h
      simp at h
  | cons x xs ih =>
    intro k c
    cases k with
    | zero =>
      simp only [nchoosekcombinations_, List.mem_singleton,
        List.length_eq_zero]
      constructor
      · rintro rfl; exact ⟨List.nil_sublist _, rfl⟩
      · rintro ⟨_, rfl⟩; rfl
    | succ k =>
      simp only [nchoosekcombinations_, List.mem_append, List.mem_map, ih]
      constructor
      · rintro (⟨c', ⟨hsub, hlen⟩, rfl⟩ | ⟨hsub, hlen⟩)
        · exact ⟨List.Sublist.cons₂ x hsub, by simp [hlen]⟩
        · exact ⟨List.Sublist.cons x hsub, hlen⟩
      · rintro ⟨hsub, hlen⟩
        rcases List.sublist_cons_iff.mp hsub with h | ⟨r, rfl, hr⟩
        · exact Or.inr ⟨h, hlen⟩
        · exact Or.inl ⟨r, ⟨hr, by simpa using hlen⟩, rfl⟩

theorem nchoosekcombinations_nodup (n : List Nat) (hn : n.Nodup) :
    ∀ k, (nchoosekcombinations_ n k).Nodup := by
  induction n with
  | nil => intro k; cases k <;> simp [nchoosekcombinations_]
  | cons x xs ih =>
    intro k
    have hx : x ∉ xs := (List.nodup_cons.mp hn).1
    have hxs : xs.Nodup := (List.nodup_cons.mp hn).2
    cases k with
    | zero => simp [nchoosekcombinations_]
    | succ k =>
      refine List.Nodup.append ?_ (ih hxs (k + 1)) ?_
      · exact ((ih hxs k).map
          (fun c₁ c₂ h => by simpa using h))
      · intro c hc₁ hc₂
        rcases List.mem_map.mp hc₁ with ⟨c', _, rfl⟩
        have hsub : (x :: c').Sublist xs :=
          ((nchoosekcombinations_mem xs (k + 1) (x :: c')).mp hc₂).1
        exact hx (hsub.subset (List.mem_cons_self x c'))

theorem getSwath_neg_one_or_nonneg (l : List (ℚ × ℚ)) (mz : ℚ) :
    getSwath_ l mz = -1 ∨ 0 ≤ getSwath_ l mz := by
  induction l with
  | nil => exact Or.inl rfl
  | cons w ws ih =>
    by_cases hc : w.1 ≤ mz ∧ mz ≤ w.2
    · right; simp [getSwath_, hc]
    · rcases ih with h | h
      · left; simp [getSwath_, hc, h]
      · right
        have hne : getSwath_ ws mz ≠ -1 := by omega
        simp only [getSwath_, hc, if_false, hne, if_neg hne]
        omega

theorem getSwath_eq_neg_one_iff (l : List (ℚ × ℚ)) (mz : ℚ) :
    getSwath_ l mz = -1 ↔ ∀ w ∈ l, ¬ windowContains w mz := by
  induction l with
  | nil => simp [getSwath_]
  | cons w ws ih =>
    by_cases hc : w.1 ≤ mz ∧ mz ≤ w.2
    · simp only [getSwath_, if_pos hc]
      constructor
      · intro h0
        exact absurd h0 (by decide)
      · intro hall
        exact absurd hc (hall w (List.mem_cons_self w ws))
    · rcases getSwath_neg_one_or_nonneg ws mz with h | h
      · constructor
        · intro _ w' hw'
          rcases List.mem_cons.mp hw' with rfl | hw'
          · exact hc
          · exact (ih.mp h) w' hw'
        · intro _
          simp [getSwath_, hc, h]
      · have hne : getSwath_ ws mz ≠ -1 := by omega
        simp only [getSwath_, if_neg hc, if_neg hne]
        constructor
        · intro habs; omega
        · intro hnone
          exact absurd (ih.mpr (fun w' hw' => hnone w' (List.mem_cons_of_mem w hw'))) hne

theorem getSwath_first_match (l : List (ℚ × ℚ)) (mz : ℚ) :
    ∀ (i : Nat) (h : i < l.length),
      windowContains (l.get ⟨i, h⟩) mz →
      (∀ (j : Nat) (hj : j < i), ¬ windowContains (l.get ⟨j, hj.trans h⟩) mz) →
      getSwath_ l mz = i := by
  induction l with
  | nil => intro i h; simp at h
  | cons w ws ih =>
    intro i h hc hfirst
    cases i with
    | zero =>
      simp only [List.get] at hc
      simp [getSwath_, hc.1, hc.2]
    | succ i =>
      have hw : ¬ windowContains w mz := by
        have := hfirst 0 (Nat.succ_pos i)
        simpa using this
      have hrec : getSwath_ ws mz = i :=
        ih i (Nat.lt_of_succ_lt_succ h) hc
          (fun j hj => hfirst (j + 1) (Nat.succ_lt_succ hj))
      have hne : getSwath_ ws mz ≠ -1 := by omega
      have hw' : ¬ (w.1 ≤ mz ∧ mz ≤ w.2) := hw
      simp only [getSwath_, hw', if_false, if_neg hne, hrec]
      push_cast
      ring

/-! ## Decoy sequence generation (`MRMAssay::generateDecoySequences_`) -/

/-- Modelled from the spec: the seedable pseudorandom source ("seedable
generator producing uniform integers in a bounded range"), as a linear
congruential step. -/
def lcgNext (s : Nat) : Nat :=
  (1103515245 * s + 12345) % 2 ^ 31

/-- Remove the element at position `j` from a list, returning it together
with the remaining elements in order. -/
def pickOut : List Char → Nat → Char × List Char
  | [], _ => ('A', [])
  | x :: xs, 0 => (x, xs)
  | x :: xs, j + 1 =>
    ((pickOut xs j).1, x :: (pickOut xs j).2)

/-- One pass of the pseudorandom permutation: repeatedly draw an index and
move the drawn residue to the front of the remainder, threading the
generator state. `fuel` bounds the recursion (a full shuffle uses the
sequence length). -/
def shuffleGo : Nat → List Char → Nat → List Char × Nat
  | 0, l, s => (l, s)
  | _ + 1, [], s => ([], s)
  | f + 1, x :: xs, s =>
    ((pickOut (x :: xs) (lcgNext s % (xs.length + 1))).1 ::
        (shuffleGo f (pickOut (x :: xs) (lcgNext s % (xs.length + 1))).2
          (lcgNext s)).1,
      (shuffleGo f (pickOut (x :: xs) (lcgNext s % (xs.length + 1))).2
        (lcgNext s)).2)

/-- Modelled from the spec: a pseudorandom permutation (shuffle) of the
residues of a sequence, driven by the seeded generator state `s`. -/
def shuffle (l : List Char) (s : Nat) : List Char × Nat :=
  shuffleGo l.length l s

/-- Modelled from the spec: the re-shuffle loop of decoy generation —
shuffle the target's residues and re-shuffle if the result equals the
original sequence, with a bounded number of attempts; yields `none` when no
differing permutation was found within the attempt budget (so no identity
decoy is ever produced). -/
def decoyLoop : Nat → List Char → Nat → Option (List Char) × Nat
  | 0, _, s => (none, s)
  | a + 1, target, s =>
    if (shuffle target s).1 = target then decoyLoop a target (shuffle target s).2
    else (some (shuffle target s).1, (shuffle target s).2)

/-- Modelled from the spec: the body of `generateDecoySequences_`'s loop over
target stripped sequences, building the global sequence-to-decoy map; a
target already present in the map is skipped so that repeated target
sequences reuse one decoy. -/
def generateDecoySequencesGo (attempts : Nat) :
    List (List Char) → Nat → List (List Char × Option (List Char)) →
      List (List Char × Option (List Char))
  | [], _, acc => acc
  | t :: ts, s, acc =>
    match acc.lookup t with
    | some _ => generateDecoySequencesGo attempts ts s acc
    | none =>
      generateDecoySequencesGo attempts ts (decoyLoop attempts t s).2
        (acc ++ [(t, (decoyLoop attempts t s).1)])

/-- Modelled from the spec: `MRMAssay::generateDecoySequences_` (declared in
`MRMAssay.h`; body not among the sampled sources). For each distinct target
stripped sequence, produce a decoy by pseudorandom permutation of its
residues, seeded from `shuffle_seed` when it is not -1 and from the
wall-clock time `timeSeed` when it is; re-shuffle while the shuffle result
equals the original, up to `attempts` tries. -/
def generateDecoySequences_ (targets : List (List Char)) (shuffle_seed : Int)
    (timeSeed : Nat) (attempts : Nat) :
    List (List Char × Option (List Char)) :=
  generateDecoySequencesGo attempts targets
    (resolveShuffleSeed shuffle_seed timeSeed) []

theorem pickOut_perm : ∀ (l : List Char) (j : Nat), j < l.length →
    List.Perm ((pickOut l j).1 :: (pickOut l j).2) l := by
  intro l
  induction l with
  | nil => intro j h; simp at h
  | cons x xs ih =>
    intro j h
    cases j with
    | zero => exact List.Perm.refl _
    | succ j =>
      have hperm := ih j (Nat.lt_of_succ_lt_succ h)
      simp only [pickOut]
      exact (List.Perm.swap x (pickOut xs j).1 (pickOut xs j).2).trans
        (hperm.cons x)

theorem shuffleGo_perm : ∀ (fuel : Nat) (l : List Char) (s : Nat),
    List.Perm (shuffleGo fuel l s).1 l := by
  intro fuel
  induction fuel with
  | zero => intro l s; exact List.Perm.refl _
  | succ f ih =>
    intro l s
    cases l with
    | nil => exact List.Perm.refl _
    | cons x xs =>
      have hj : lcgNext s % (xs.length + 1) < (x :: xs).length :=
        Nat.mod_lt _ (Nat.succ_pos _)
      exact ((ih _ _).cons _).trans (pickOut_perm (x :: xs) _ hj)

theorem shuffle_perm (l : List Char) (s : Nat) :
    List.Perm (shuffle l s).1 l :=
  shuffleGo_perm l.length l s

theorem decoyLoop_some : ∀ (attempts : Nat) (target : List Char) (s : Nat)
    (d : List Char), (decoyLoop attempts target s).1 = some d →
    List.Perm d target ∧ d ≠ target := by
  intro attempts
  induction attempts with
  | zero => intro t s d h; simp [decoyLoop] at h
  | succ a ih =>
    intro t s d h
    by_cases heq : (shuffle t s).1 = t
    · rw [decoyLoop, if_pos heq] at h
      exact ih t (shuffle t s).2 d h
    · rw [decoyLoop, if_neg heq] at h
      have hd : d = (shuffle t s).1 := by
        simpa using h.symm
      subst hd
      exact ⟨shuffle_perm t s, heq⟩

theorem generateDecoySequencesGo_inv (attempts : Nat)
    (ts : List (List Char)) :
    ∀ (s : Nat) (acc : List (List Char × Option (List Char))),
      (∀ p ∈ acc, ∀ d, p.2 = some d → List.Perm d p.1 ∧ d ≠ p.1) →
      ∀ p ∈ generateDecoySequencesGo attempts ts s acc,
        ∀ d, p.2 = some d → List.Perm d p.1 ∧ d ≠ p.1 := by
  induction ts with
  | nil =>
    intro s acc hacc p hp
    exact hacc p (by simpa [generateDecoySequencesGo] using hp)
  | cons t ts ih =>
    intro s acc hacc p hp
    cases hlk : acc.lookup t with
    | some v =>
      simp only [generateDecoySequencesGo, hlk] at hp
      exact ih s acc hacc p hp
    | none =>
      simp only [generateDecoySequencesGo, hlk] at hp
      refine ih _ _ ?_ p hp
      intro q hq d hd
      rcases List.mem_append.mp hq with hq | hq
      · exact hacc q hq d hd
      · rcases List.mem_singleton.mp hq with rfl
        exact decoyLoop_some attempts t s d hd

/-! ## Decoy modification transfer (`MRMAssay::combineDecoyModifications_`) -/

/-- Modelled from the spec: the decision core of
`MRMAssay::combineDecoyModifications_` (declared in `MRMAssay.h`; body not
among the sampled sources), abstracted over the modification-validity
oracle: given the decoy's modifiable-site list and the observed count `k` of
the modification on the target, it reports an insufficient-sites error when
the decoy has fewer modifiable sites than `k`, and otherwise yields the full
set of k-out-of-n placements on the decoy's sites — never a truncated one. -/
def combineDecoyModifications_ (decoy_sites : List Nat) (k : Nat) :
    Except String (List (List Nat)) :=
  if decoy_sites.length < k then
    Except.error "insufficient modifiable sites on decoy"
  else
    Except.ok (nchoosekcombinations_ decoy_sites k)

/-- A peptide to process during decoy-modification transfer: its identifier,
its decoy's modifiable-site list, and the observed modification count on the
target. -/
structure PeptideJob where
  name : String
  decoySites : List Nat
  modCount : Nat

/-- Modelled from the spec: the per-peptide processing loop around
`combineDecoyModifications_` — a peptide whose decoy lacks enough modifiable
sites is skipped and reported, and processing continues with the remaining
peptides. -/
def processDecoyPeptides :
    List PeptideJob → List (String × List (List Nat)) × List String
  | [] => ([], [])
  | j :: js =>
    match combineDecoyModifications_ j.decoySites j.modCount with
    | Except.ok r =>
      ((j.name, r) :: (processDecoyPeptides js).1, (processDecoyPeptides js).2)
    | Except.error _ =>
      ((processDecoyPeptides js).1, j.name :: (processDecoyPeptides js).2)

/-! ## Theorems -/

/-- C1: for every queried fragment ion m/z, candidate ion list and threshold
t ≥ 0, `getMatchingPeptidoforms_` returns exactly the labels of the pairs
whose stored m/z is within ± t (inclusive, symmetric, absolute units): its
output is the in-order sublist of labels of matching pairs, and a label is
returned iff some pair carries it within tolerance; on the spec's example ions
`[(500.0,"A"),(500.0005,"B"),(600.0,"C")]` with t = 0.001, querying 500.0002
returns exactly A and B, and querying 600.0 returns exactly C. -/
theorem getMatchingPeptidoforms_correct :
    (∀ (f t : ℚ) (ions : List (ℚ × String)), 0 ≤ t →
      getMatchingPeptidoforms_ f ions t =
        (ions.filter (fun p => |f - p.1| ≤ t)).map Prod.snd ∧
      (∀ lab : String,
        lab ∈ getMatchingPeptidoforms_ f ions t ↔
          ∃ d : ℚ, (d, lab) ∈ ions ∧ |f - d| ≤ t)) ∧
    getMatchingPeptidoforms_ 500.0002
      [(500.0, "A"), (500.0005, "B"), (600.0, "C")] 0.001 = ["A", "B"] ∧
    getMatchingPeptidoforms_ 600.0
      [(500.0, "A"), (500.0005, "B"), (600.0, "C")] 0.001 = ["C"] := by
  refine ⟨fun f t ions _ => ⟨rfl, fun lab => ?_⟩, ?_, ?_⟩
  · simp only [getMatchingPeptidoforms_, List.mem_map, List.mem_filter]
    constructor
    · rintro ⟨⟨d, l⟩, ⟨hmem, hle⟩, rfl⟩
      exact ⟨d, hmem, by simpa using hle⟩
    · rintro ⟨d, hmem, hle⟩
      exact ⟨(d, lab), ⟨hmem, by simpa using hle⟩, rfl⟩
  · norm_num [getMatchingPeptidoforms_, List.filter_cons, abs_sub_le_iff]
  · norm_num [getMatchingPeptidoforms_, List.filter_cons, abs_sub_le_iff]

/-- Witness for C1: the general clause of `getMatchingPeptidoforms_correct`
applied at the spec's example, discharging the threshold hypothesis. -/
theorem getMatchingPeptidoforms_correct_witness :
    (0 : ℚ) ≤ 0.001 ∧
    (∀ lab : String,
      lab ∈ getMatchingPeptidoforms_ 600.0
        [(500.0, "A"), (500.0005, "B"), (600.0, "C")] 0.001 ↔
        ∃ d : ℚ, (d, lab) ∈ [(500.0, "A"), (500.0005, "B"), (600.0, "C")] ∧
          |(600.0 : ℚ) - d| ≤ 0.001) :=
  ⟨by norm_num,
   (getMatchingPeptidoforms_correct.1 600.0 0.001
     [(500.0, "A"), (500.0005, "B"), (600.0, "C")] (by norm_num)).2⟩

/-- C9: in `JavaInfo::canRun` the `verbose_on_error` flag changes the result,
not just the logging: when `File::find` fails, the function returns `false`
immediately only if `verbose_on_error` is true; with `verbose_on_error =
false` the exception is swallowed, the process is still started, and the
function returns whether it finished. When the executable is found the flag
never affects the result. -/
theorem canRun_verbose_changes_result :
    (∀ p : Bool, canRun false p true = false) ∧
    (∀ p : Bool, canRun false p false = p) ∧
    canRun false true false ≠ canRun false true true ∧
    (∀ p v : Bool, canRun true p v = p) := by
  refine ⟨fun p => rfl, fun p => rfl, by decide, fun p v => ?_⟩
  cases v <;> rfl

/-- C8: the trailing defaults of `MRMAssay::uisTransitions` are
`round_decPow = -4`, `max_num_alternative_localizations = 20`,
`shuffle_seed = -1` (which selects the time-based seed), and
`disable_decoy_transitions = false`; a call omitting them resolves to
exactly the same parameter values as a call passing them explicitly. -/
theorem uisTransitions_defaults :
    resolveUISArgs none none none none = (-4, 20, -1, false) ∧
    resolveUISArgs none none none none =
      resolveUISArgs (some (-4)) (some 20) (some (-1)) (some false) ∧
    (∀ timeSeed : Nat, resolveShuffleSeed (-1) timeSeed = timeSeed) :=
  ⟨rfl, rfl, fun _ => rfl⟩

/-- C3 counterexample: it is false that every `BaseLabeler` extension point
with an unimplemented default fails loudly when invoked; `setUpHook`'s
default body is empty, a silent no-op. -/
theorem not_every_hook_failsLoudly :
    ¬ (∀ h : LabelerHook, failsLoudly h = true) := by
  intro h
  exact absurd (h LabelerHook.setUpHook) (by decide)

/-- C3 amended: every `BaseLabeler` extension point except `setUpHook` fails
loudly and immediately when its unimplemented default is invoked (it raises
an `Exception::NotImplemented`, by value for the labeling hooks and as a
pointer for `preCheck`); `setUpHook`'s default silently does nothing. -/
theorem hooks_failLoudly_except_setUpHook :
    (∀ h : LabelerHook, h ≠ LabelerHook.setUpHook → failsLoudly h = true) ∧
    failsLoudly LabelerHook.setUpHook = false := by
  refine ⟨fun h hne => ?_, by decide⟩
  cases h <;> first | rfl | exact absurd rfl hne

/-- Witness for C3: the amended theorem applied at `postDigestHook`,
discharging the `≠ setUpHook` hypothesis. -/
theorem hooks_failLoudly_except_setUpHook_witness :
    LabelerHook.postDigestHook ≠ LabelerHook.setUpHook ∧
    failsLoudly LabelerHook.postDigestHook = true :=
  ⟨by decide,
   hooks_failLoudly_except_setUpHook.1 LabelerHook.postDigestHook (by decide)⟩

/-- C10: `BaseLabeler::preCheck` always throws, but it throws a pointer to a
heap-allocated `Exception::NotImplemented` rather than an object by value as
every other throwing hook does, so a handler catching
`Exception::NotImplemented` (or a reference) catches every other throwing
hook's error but not `preCheck`'s; and `preCheck`'s doc comment promises
`Exception::InvalidParameter`, not what it actually throws. -/
theorem preCheck_throws_pointer_not_caught :
    hookBehavior LabelerHook.preCheck = HookBehavior.throwNotImplementedPointer ∧
    caughtByNotImplementedHandler (hookBehavior LabelerHook.preCheck) = false ∧
    caughtByNotImplementedHandler (hookBehavior LabelerHook.postDigestHook) = true ∧
    caughtByNotImplementedHandler (hookBehavior LabelerHook.postRTHook) = true ∧
    caughtByNotImplementedHandler (hookBehavior LabelerHook.postDetectabilityHook) = true ∧
    caughtByNotImplementedHandler (hookBehavior LabelerHook.postIonizationHook) = true ∧
    caughtByNotImplementedHandler (hookBehavior LabelerHook.postRawMSHook) = true ∧
    caughtByNotImplementedHandler (hookBehavior LabelerHook.postRawTandemMSHook) = true ∧
    preCheckDocumentedThrow ≠ preCheckActualThrow := by
  refine ⟨rfl, rfl, rfl, rfl, rfl, rfl, rfl, rfl, by decide⟩

/-- C2: for every duplicate-free, ascending index vector n and every k,
`nchoosekcombinations_` returns exactly `C(|n|, k)` distinct subsets, each of
size k, each drawn from the given indices with its internal order ascending;
for k = 0 it returns exactly one empty subset, and for k > |n| it returns an
empty result set rather than an error. -/
theorem nchoosekcombinations_correct (n : List Nat) (k : Nat)
    (hnd : n.Nodup) (hs : List.Sorted (· < ·) n) :
    (nchoosekcombinations_ n k).length = n.length.choose k ∧
    (nchoosekcombinations_ n k).Nodup ∧
    (∀ c ∈ nchoosekcombinations_ n k,
      c.length = k ∧ (∀ i ∈ c, i ∈ n) ∧ List.Sorted (· < ·) c) ∧
    nchoosekcombinations_ n 0 = [[]] ∧
    (n.length < k → nchoosekcombinations_ n k = []) := by
  refine ⟨nchoosekcombinations_length n k, nchoosekcombinations_nodup n hnd k,
    fun c hc => ?_, ?_, fun hlt => ?_⟩
  · rcases (nchoosekcombinations_mem n k c).mp hc with ⟨hsub, hlen⟩
    exact ⟨hlen, fun i hi => hsub.subset hi, hs.sublist hsub⟩
  · cases n <;> rfl
  · have h0 : (nchoosekcombinations_ n k).length = 0 := by
      rw [nchoosekcombinations_length n k, Nat.choose_eq_zero_of_lt hlt]
    exact List.length_eq_zero.mp h0

/-- Witness for C2: `nchoosekcombinations_correct` applied at the index
vector [0, 1, 2] and k = 2, discharging the duplicate-freeness and
sortedness hypotheses. -/
theorem nchoosekcombinations_correct_witness :
    List.Nodup [0, 1, 2] ∧ List.Sorted (· < ·) [0, 1, 2] ∧
    (nchoosekcombinations_ [0, 1, 2] 2).length = Nat.choose 3 2 :=
  ⟨by decide, by decide,
   (nchoosekcombinations_correct [0, 1, 2] 2 (by decide) (by decide)).1⟩

/-- C6: `getSwath_` returns the index of the first swath window whose bounds
contain the precursor m/z — whenever window i contains it and no earlier
window does, the result is i — and returns the sentinel -1 exactly when no
window contains it; on windows [(400,500),(500,600)] it returns 0 for
precursor m/z 450, 1 for 550, and -1 for 650. -/
theorem getSwath_correct :
    (∀ (swathes : List (ℚ × ℚ)) (precursor_mz : ℚ),
      (getSwath_ swathes precursor_mz = -1 ↔
        ∀ w ∈ swathes, ¬ windowContains w precursor_mz) ∧
      (∀ (i : Nat) (h : i < swathes.length),
        windowContains (swathes.get ⟨i, h⟩) precursor_mz →
        (∀ (j : Nat) (hj : j < i),
          ¬ windowContains (swathes.get ⟨j, hj.trans h⟩) precursor_mz) →
        getSwath_ swathes precursor_mz = i)) ∧
    getSwath_ [(400, 500), (500, 600)] 450 = 0 ∧
    getSwath_ [(400, 500), (500, 600)] 550 = 1 ∧
    getSwath_ [(400, 500), (500, 600)] 650 = -1 := by
  refine ⟨fun swathes mz =>
    ⟨getSwath_eq_neg_one_iff swathes mz, getSwath_first_match swathes mz⟩,
    ?_, ?_, ?_⟩
  · norm_num [getSwath_]
  · norm_num [getSwath_]
  · norm_num [getSwath_]

/-- Witness for C6: the first-match clause of `getSwath_correct` applied at
the spec's window list and precursor m/z 550, index 1, discharging the
containment and no-earlier-match hypotheses. -/
theorem getSwath_correct_witness :
    getSwath_ [(400, 500), (500, 600)] 550 = 1 :=
  (getSwath_correct.1 [(400, 500), (500, 600)] 550).2 1 (by norm_num)
    (by constructor <;> norm_num)
    (by
      intro j hj
      interval_cases j
      simp only [List.get]
      intro hcontains
      rcases hcontains with ⟨_, h2⟩
      norm_num at h2)

/-- C4: decoy generation is deterministic under a fixed seed — for every
target list and every seed ≠ -1, the result of `generateDecoySequences_` is
independent of the wall-clock time, so two runs on the same input with the
same seed produce identical decoy sequences (the whole PRNG stream is a
function of the seed alone); seed = -1 is the only path that reads the
clock. -/
theorem generateDecoySequences_deterministic
    (targets : List (List Char)) (shuffle_seed : Int)
    (t1 t2 attempts : Nat) (hseed : shuffle_seed ≠ -1) :
    generateDecoySequences_ targets shuffle_seed t1 attempts =
      generateDecoySequences_ targets shuffle_seed t2 attempts := by
  simp [generateDecoySequences_, resolveShuffleSeed, hseed]

/-- Witness for C4: `generateDecoySequences_deterministic` applied at seed 7
and two different clock values, discharging the seed hypothesis. -/
theorem generateDecoySequences_deterministic_witness :
    (7 : Int) ≠ -1 ∧
    generateDecoySequences_ [['A', 'B', 'C']] 7 0 5 =
      generateDecoySequences_ [['A', 'B', 'C']] 7 123456 5 :=
  ⟨by decide,
   generateDecoySequences_deterministic [['A', 'B', 'C']] 7 0 123456 5
     (by decide)⟩

/-- C5: every decoy string recorded in the sequence map built by
`generateDecoySequences_` is a permutation of the same multiset of residues
as its target (obtained by shuffling) and never equals the target: the
re-shuffle loop only ever emits a shuffle result that differs from the
original sequence. -/
theorem generateDecoySequences_decoy_ne_target
    (targets : List (List Char)) (shuffle_seed : Int)
    (timeSeed attempts : Nat) (t d : List Char)
    (hmem : (t, some d) ∈
      generateDecoySequences_ targets shuffle_seed timeSeed attempts) :
    List.Perm d t ∧ d ≠ t :=
  generateDecoySequencesGo_inv attempts targets
    (resolveShuffleSeed shuffle_seed timeSeed) [] (by simp)
    (t, some d) hmem d rfl

/-- Witness for C5: `generateDecoySequences_decoy_ne_target` applied at a
concrete run (seed 7, target ABC, decoy ACB), discharging the membership
hypothesis. -/
theorem generateDecoySequences_decoy_ne_target_witness :
    (['A', 'B', 'C'], some ['A', 'C', 'B']) ∈
      generateDecoySequences_ [['A', 'B', 'C']] 7 0 5 ∧
    (List.Perm ['A', 'C', 'B'] ['A', 'B', 'C'] ∧
      ['A', 'C', 'B'] ≠ ['A', 'B', 'C']) :=
  ⟨by decide,
   generateDecoySequences_decoy_ne_target [['A', 'B', 'C']] 7 0 5
     ['A', 'B', 'C'] ['A', 'C', 'B'] (by decide)⟩

/-- C7: `combineDecoyModifications_` fails explicitly with an
insufficient-sites error exactly when the decoy has fewer modifiable sites
than the observed modification count; on success it yields the complete,
untruncated set of C(sites, count) placements; and in the per-peptide
processing loop the error is scoped to the offending peptide — it is
reported and skipped while every other peptide is still processed. -/
theorem combineDecoyModifications_insufficient_sites :
    (∀ (decoy_sites : List Nat) (k : Nat),
      (∃ e, combineDecoyModifications_ decoy_sites k = Except.error e) ↔
        decoy_sites.length < k) ∧
    (∀ (decoy_sites : List Nat) (k : Nat) (r : List (List Nat)),
      combineDecoyModifications_ decoy_sites k = Except.ok r →
        r.length = decoy_sites.length.choose k) ∧
    (∀ js : List PeptideJob,
      (processDecoyPeptides js).2 =
        (js.filter (fun j => decide (j.decoySites.length < j.modCount))).map
          (fun j => j.name) ∧
      (processDecoyPeptides js).1 =
        (js.filter (fun j => decide (j.modCount ≤ j.decoySites.length))).map
          (fun j => (j.name, nchoosekcombinations_ j.decoySites j.modCount))) := by
  refine ⟨fun sites k => ?_, fun sites k r hr => ?_, fun js => ?_⟩
  · constructor
    · rintro ⟨e, he⟩
      by_contra hge
      simp [combineDecoyModifications_, hge] at he
    · intro hlt
      exact ⟨"insufficient modifiable sites on decoy",
        by simp [combineDecoyModifications_, hlt]⟩
  · by_cases hlt : sites.length < k
    · simp [combineDecoyModifications_, hlt] at hr
    · simp only [combineDecoyModifications_, if_neg hlt, Except.ok.injEq] at hr
      rw [← hr]
      exact nchoosekcombinations_length sites k
  · induction js with
    | nil => exact ⟨rfl, rfl⟩
    | cons j js ih =>
      by_cases hlt : j.decoySites.length < j.modCount
      · have hnot : ¬ j.modCount ≤ j.decoySites.length := by omega
        have hcomb : combineDecoyModifications_ j.decoySites j.modCount =
            Except.error "insufficient modifiable sites on decoy" := by
          simp [combineDecoyModifications_, hlt]
        refine ⟨?_, ?_⟩
        · simp only [processDecoyPeptides, hcomb, List.filter_cons]
          simp [hlt, hnot, ih.1]
        · simp only [processDecoyPeptides, hcomb, List.filter_cons]
          simp [hlt, hnot, ih.2]
      · have hge : j.modCount ≤ j.decoySites.length := by omega
        have hcomb : combineDecoyModifications_ j.decoySites j.modCount =
            Except.ok (nchoosekcombinations_ j.decoySites j.modCount) := by
          simp [combineDecoyModifications_, hlt]
        refine ⟨?_, ?_⟩
        · simp only [processDecoyPeptides, hcomb, List.filter_cons]
          simp [hlt, hge, ih.1]
        · simp only [processDecoyPeptides, hcomb, List.filter_cons]
          simp [hlt, hge, ih.2]

/-- Witness for C7: the success clause of
`combineDecoyModifications_insufficient_sites` applied at a concrete decoy
site list [0, 1] with one observed modification, discharging the
success-result hypothesis. -/
theorem combineDecoyModifications_insufficient_sites_witness :
    combineDecoyModifications_ [0, 1] 1 =
      Except.ok (nchoosekcombinations_ [0, 1] 1) ∧
    (nchoosekcombinations_ [0, 1] 1).length = Nat.choose 2 1 :=
  ⟨rfl,
   combineDecoyModifications_insufficient_sites.2.1 [0, 1] 1
     (nchoosekcombinations_ [0, 1] 1) rfl⟩
